import Mathlib

/-!
Shallow embedding of the registration core of `fmri_utils`
(`registration/code_our_version.py`) and proofs of the specification's
claims about it.

Volumes are dense 3-D arrays of intensities, modelled as a shape together
with a total data function on integer indices; affines are 4×4 matrices
over a linear ordered field (ℚ where the claims are evaluated concretely,
ℝ where the mutual-information logarithm is needed).  `numpy.linalg.inv`
raising `LinAlgError` on a singular matrix, and `scipy.ndimage`'s
`affine_transform` with its default `mode='constant'` boundary policy,
are embedded faithfully to the libraries' documented behaviour.
-/

set_option maxHeartbeats 1000000
set_option linter.unusedSectionVars false

namespace ProjectRed

/-- Errors surfaced by the registration core: inverting a singular affine
(`numpy.linalg.LinAlgError`), histogramming two sample vectors of unequal
length, and a non-positive bin count. -/
inductive RegError where
  | singularTransform
  | lengthMismatch
  | invalidBins
deriving DecidableEq

abbrev M4 (K : Type) := Matrix (Fin 4) (Fin 4) K

abbrev M3 (K : Type) := Matrix (Fin 3) (Fin 3) K

variable {K : Type} [LinearOrderedField K]

/-- Embedding of `nibabel.affines.to_matvec`: split a 4×4 homogeneous
affine into its 3×3 linear part and translation 3-vector. -/
def to_matvec (A : M4 K) : M3 K × (Fin 3 → K) :=
  (Matrix.of fun i j : Fin 3 => A i.castSucc j.castSucc, fun i => A i.castSucc 3)

/-- Embedding of `nibabel.affines.from_matvec`: build the 4×4 homogeneous
affine with the given linear part and translation, bottom row (0,0,0,1). -/
def from_matvec (mat : M3 K) (vec : Fin 3 → K) : M4 K :=
  Matrix.of fun i j : Fin 4 =>
    if hi : (i : ℕ) < 3 then
      if hj : (j : ℕ) < 3 then mat ⟨i, hi⟩ ⟨j, hj⟩ else vec ⟨i, hi⟩
    else if (j : ℕ) = 3 then 1 else 0

/-- Action of a 4×4 affine on a 3-vector of coordinates: linear part times
the vector plus the translation column (rows 0–2 of the homogeneous
product; the bottom row is ignored, as when decomposing via `to_matvec`). -/
def applyAffine (A : M4 K) (x : Fin 3 → K) (i : Fin 3) : K :=
  (∑ j : Fin 3, A i.castSucc j.castSucc * x j) + A i.castSucc 3

/-- The inverse of a 4×4 matrix as computed by `numpy.linalg.inv` on a
non-singular input, via the adjugate formula. -/
def inv44 (A : M4 K) : M4 K := (A.det)⁻¹ • A.adjugate

/-- Embedding of `numpy.linalg.inv`: raises `LinAlgError` on a singular
matrix, otherwise returns the inverse. -/
def npinv (A : M4 K) : Except RegError (M4 K) :=
  if A.det = 0 then .error .singularTransform else .ok (inv44 A)

/-- A 3-D volume: grid shape and intensity data, total on integer index
triples (only indices inside the shape are ever meaningful). -/
structure Volume (K : Type) where
  shape : Fin 3 → ℕ
  data : (Fin 3 → ℤ) → K

/-- Number of voxels of a volume. -/
def Volume.size (V : Volume K) : ℕ := V.shape 0 * (V.shape 1 * V.shape 2)

/-- An integer index triple lies inside a grid shape. -/
def inShape (s : Fin 3 → ℕ) (v : Fin 3 → ℤ) : Prop :=
  ∀ i, 0 ≤ v i ∧ v i < (s i : ℤ)

instance (s : Fin 3 → ℕ) (v : Fin 3 → ℤ) : Decidable (inShape s v) :=
  inferInstanceAs (Decidable (∀ _, _ ∧ _))

/-- Read a voxel, with out-of-bounds indices contributing intensity 0. -/
def sampleAt (V : Volume K) (v : Fin 3 → ℤ) : K :=
  if inShape V.shape v then V.data v else 0

variable [FloorRing K]

/-- Weight of a corner offset (0 or 1) along one axis given the
fractional part `f` of the coordinate on that axis: `1 − f` for the lower
corner and `f` for the upper one. -/
def cornerWeight (f : K) (e : Fin 2) : K :=
  if e = 0 then 1 - f else f

/-- Trilinear (order-1 spline) interpolation of a volume at a continuous
coordinate: each of the 8 integer-index corners is weighted by its
fractional distance, out-of-bounds corners contributing 0. -/
def trilinear (V : Volume K) (c : Fin 3 → K) : K :=
  ∑ e : Fin 2 × Fin 2 × Fin 2,
    cornerWeight (Int.fract (c 0)) e.1 *
      (cornerWeight (Int.fract (c 1)) e.2.1 *
        (cornerWeight (Int.fract (c 2)) e.2.2 *
          sampleAt V ![⌊c 0⌋ + ((e.1 : ℕ) : ℤ), ⌊c 1⌋ + ((e.2.1 : ℕ) : ℤ),
            ⌊c 2⌋ + ((e.2.2 : ℕ) : ℤ)]))

/-- A continuous coordinate lies in the interpolation extent
`[0, shape−1]` of a grid, the region where scipy's `mode='constant'`
interpolates instead of returning the constant fill value. -/
def inExtent (s : Fin 3 → ℕ) (c : Fin 3 → K) : Prop :=
  ∀ i, 0 ≤ c i ∧ c i ≤ (s i : K) - 1

instance (s : Fin 3 → ℕ) (c : Fin 3 → K) : Decidable (inExtent s c) :=
  inferInstanceAs (Decidable (∀ _, _ ∧ _))

/-- Value produced by `scipy.ndimage.affine_transform` (order=1, default
`mode='constant'`, `cval=0`) at one mapped input coordinate: coordinates
with any component outside `[0, len-1]` yield the constant 0 with no
interpolation beyond the edges; in-extent coordinates are interpolated
trilinearly. -/
def constantModeValue (M : Volume K) (c : Fin 3 → K) : K :=
  if inExtent M.shape c then trilinear M c else 0

/-- Embedding of `scipy.ndimage.affine_transform(input, mat, vec,
output_shape, order=1)`: each output voxel `v` is sampled from the input
at coordinate `mat·v + vec`. -/
def affine_transform (input : Volume K) (mat : M3 K) (vec : Fin 3 → K)
    (outShape : Fin 3 → ℕ) : Volume K :=
  { shape := outShape
    data := fun v =>
      constantModeValue input (fun i => (∑ j, mat i j * (v j : K)) + vec i) }

/-- Embedding of `resample` from `code_our_version.py`: invert the moving
affine, compose with the static affine, and pull the moving volume onto
the static grid with `affine_transform`. -/
def resample (S M : Volume K) (As Am : M4 K) : Except RegError (Volume K) :=
  (npinv Am).map fun Aminv =>
    affine_transform M (to_matvec (Aminv * As)).1 (to_matvec (Aminv * As)).2 S.shape

/-- Sum of a function over all voxel indices of a volume's grid. -/
def gridSum (V : Volume K) (f : (Fin 3 → ℤ) → K) : K :=
  ∑ i in Finset.range (V.shape 0), ∑ j in Finset.range (V.shape 1),
    ∑ k in Finset.range (V.shape 2), f ![(i : ℤ), (j : ℤ), (k : ℤ)]

/-- Embedding of `scipy.ndimage.measurements.center_of_mass`: the
intensity-weighted centroid of a volume, one coordinate per axis. -/
def center_of_mass (V : Volume K) (a : Fin 3) : K :=
  gridSum V (fun v => (v a : K) * V.data v) / gridSum V V.data

/-- World-space (reference-frame) position of a volume's center of mass
under its affine: linear part times the centroid plus the translation
(`static_cmass_in_ref` / `moving_cmass_in_ref` in `transform_cmass`). -/
def cmass_in_ref (V : Volume K) (A : M4 K) : Fin 3 → K :=
  (to_matvec A).1.mulVec (center_of_mass V) + (to_matvec A).2

/-- Embedding of `transform_cmass` from `code_our_version.py`: the shift
affine built from the world-space centroid displacement, composed onto
the moving affine. -/
def transform_cmass (S M : Volume K) (As Am : M4 K) : M4 K :=
  from_matvec 1 (cmass_in_ref S As - cmass_in_ref M Am) * Am

/-- Raveling (C-order flattening) of a volume's grid data, as produced by
`numpy.ndarray.ravel`: flat sample `t` reads voxel
`(t / (J·K), (t / K) mod J, t mod K)`. -/
def ravel (V : Volume K) (t : ℕ) : K :=
  V.data ![((t / (V.shape 1 * V.shape 2) : ℕ) : ℤ),
           (((t / V.shape 2) % V.shape 1 : ℕ) : ℤ),
           ((t % V.shape 2 : ℕ) : ℤ)]

/-- Minimum intensity over the raveled samples of a volume (`numpy.min`
of the flattened data; 0 for an empty volume). -/
def vminOf (V : Volume K) : K :=
  if h : (Finset.range V.size).Nonempty then (Finset.range V.size).inf' h (ravel V)
  else 0

/-- Maximum intensity over the raveled samples of a volume (`numpy.max`
of the flattened data; 0 for an empty volume). -/
def vmaxOf (V : Volume K) : K :=
  if h : (Finset.range V.size).Nonempty then (Finset.range V.size).sup' h (ravel V)
  else 0

/-- Bin index assigned by `numpy.histogram2d` to value `v` for `n`
equal-width bins spanning `[lo, hi]`: the floor of the rescaled value,
with the rightmost edge included in the last bin; when `lo = hi` numpy
widens the range to `[lo − 1/2, hi + 1/2]`. -/
def binIdx (lo hi : K) (n : ℕ) (v : K) : ℕ :=
  if lo = hi then min (⌊(v - (lo - 1/2)) * n⌋.toNat) (n - 1)
  else min (⌊(v - lo) * n / (hi - lo)⌋.toNat) (n - 1)

/-- Bin index of the `t`-th raveled sample of a volume, bins spanning the
volume's own observed min/max intensities. -/
def binOf (V : Volume K) (n : ℕ) (t : ℕ) : ℕ :=
  binIdx (vminOf V) (vmaxOf V) n (ravel V t)

/-- Joint 2-D histogram of `numpy.histogram2d(A.ravel(), B.ravel(), n)`:
count of paired samples landing in cell `(i, j)`. -/
def hist2d (A B : Volume K) (n : ℕ) (i j : ℕ) : ℕ :=
  ((Finset.range A.size).filter (fun t => binOf A n t = i ∧ binOf B n t = j)).card

/-- Total count of the joint histogram (`hist_2d.sum()`). -/
def totalCount (A B : Volume K) (n : ℕ) : ℕ :=
  ∑ i in Finset.range n, ∑ j in Finset.range n, hist2d A B n i j

/-- Normalized joint histogram `P[i,j] = H[i,j] / sum(H)`
(`hist_2d_p` in the code). -/
def jointP (A B : Volume K) (n : ℕ) (i j : ℕ) : K :=
  (hist2d A B n i j : K) / (totalCount A B n : K)

/-- Row marginal `Px[i] = Σ_j P[i,j]` (`px = hist_2d_p.sum(axis=1)`). -/
def margX (A B : Volume K) (n : ℕ) (i : ℕ) : K :=
  ∑ j in Finset.range n, jointP A B n i j

/-- Column marginal `Py[j] = Σ_i P[i,j]` (`py = hist_2d_p.sum(axis=0)`). -/
def margY (A B : Volume K) (n : ℕ) (j : ℕ) : K :=
  ∑ i in Finset.range n, jointP A B n i j

/-- The masked mutual-information sum of `mutual_info`: cells with
`P[i,j] > 0` contribute `P[i,j]·log(P[i,j]/(Px[i]·Py[j]))`, all other
cells are excluded by the `nzs` mask. -/
noncomputable def MIval (A B : Volume ℝ) (n : ℕ) : ℝ :=
  ∑ i in Finset.range n, ∑ j in Finset.range n,
    if 0 < jointP A B n i j then
      jointP A B n i j * Real.log (jointP A B n i j / (margX A B n i * margY A B n j))
    else 0

/-- Embedding of `mutual_info` from `code_our_version.py`: ravel both
volumes, joint-histogram them (`numpy.histogram2d` raises when the two
flattened sample vectors differ in length, or when the bin count is not
positive), normalize, and sum the masked MI terms. -/
noncomputable def mutual_info (A B : Volume ℝ) (n : ℕ) : Except RegError ℝ :=
  if A.size ≠ B.size then .error .lengthMismatch
  else if n = 0 then .error .invalidBins
  else .ok (MIval A B n)

/-- Modelled from the spec: `x_rotmat` of `fmri_utils.func_preproc.rotations`
(that module is not part of the sources), the standard right-handed
rotation matrix by `θ` radians about the x axis. -/
noncomputable def x_rotmat (θ : ℝ) : M3 ℝ :=
  Matrix.of ![![1, 0, 0],
              ![0, Real.cos θ, -Real.sin θ],
              ![0, Real.sin θ, Real.cos θ]]

/-- Modelled from the spec: `y_rotmat` of `fmri_utils.func_preproc.rotations`,
the standard right-handed rotation matrix by `θ` radians about the y axis. -/
noncomputable def y_rotmat (θ : ℝ) : M3 ℝ :=
  Matrix.of ![![Real.cos θ, 0, Real.sin θ],
              ![0, 1, 0],
              ![-Real.sin θ, 0, Real.cos θ]]

/-- Modelled from the spec: `z_rotmat` of `fmri_utils.func_preproc.rotations`,
the standard right-handed rotation matrix by `θ` radians about the z axis. -/
noncomputable def z_rotmat (θ : ℝ) : M3 ℝ :=
  Matrix.of ![![Real.cos θ, -Real.sin θ, 0],
              ![Real.sin θ, Real.cos θ, 0],
              ![0, 0, 1]]

/-- Embedding of the local `make_rot_mat` of `transform_rigid`:
`Rz(r_z) · Ry(r_y) · Rx(r_x)` from a radian Euler triple. -/
noncomputable def make_rot_mat (r : Fin 3 → ℝ) : M3 ℝ :=
  z_rotmat (r 2) * y_rotmat (r 1) * x_rotmat (r 0)

/-- Embedding of the local `MI_cost_translation` of `transform_rigid`:
compose a translation guess onto the moving affine, resample, and return
the negated mutual information at 64 bins (errors propagate). -/
noncomputable def MI_cost_translation (S M : Volume ℝ) (As Am : M4 ℝ)
    (translations : Fin 3 → ℝ) : Except RegError ℝ :=
  (resample S M As (Am * from_matvec 1 translations)).bind fun moving_resampled =>
    (mutual_info S moving_resampled 64).map fun m => -m

/-- Embedding of the local `MI_cost_rotation` of `transform_rigid`:
compose a rotation guess onto the translation-updated moving affine,
resample, and return the negated mutual information at 32 bins
(errors propagate). -/
noncomputable def MI_cost_rotation (S M : Volume ℝ) (As Amt : M4 ℝ)
    (rotations : Fin 3 → ℝ) : Except RegError ℝ :=
  (resample S M As (Amt * from_matvec (make_rot_mat rotations) 0)).bind
    fun moving_resampled => (mutual_info S moving_resampled 32).map fun m => -m

/-- Embedding of `transform_rigid` from `code_our_version.py`.  The
derivative-free Powell minimizer (`scipy.optimize.fmin_powell`) is an
external collaborator, abstracted as the oracle `fmin` mapping a cost
function, a start point and a maximum iteration count to the best
parameter vector found; `mode` is the `partial` flag of the source
(0 = translations then rotations, 1 = translations only,
2 = rotations only). -/
noncomputable def transform_rigid (S M : Volume ℝ) (As Am : M4 ℝ) (iter : ℕ)
    (fmin : ((Fin 3 → ℝ) → Except RegError ℝ) → (Fin 3 → ℝ) → ℕ → (Fin 3 → ℝ))
    (mode : ℕ) : M4 ℝ :=
  let best_translations :=
    if mode = 0 ∨ mode = 1 then fmin (MI_cost_translation S M As Am) (fun _ => 0) iter
    else fun _ => 0
  let moving_affine_translated := Am * from_matvec 1 best_translations
  let best_rotations :=
    if mode = 0 ∨ mode = 2 then
      fmin (MI_cost_rotation S M As moving_affine_translated) (fun _ => 0) iter
    else fun _ => 0
  from_matvec (make_rot_mat best_rotations) best_translations

/-- Payload predicate on a fallible resampling result: the call succeeded
and the returned volume has the same shape as, and agrees on every
in-bounds voxel with, the reference volume. -/
def OkEqOn : Except RegError (Volume K) → Volume K → Prop
  | .ok R, W => R.shape = W.shape ∧ ∀ v, inShape W.shape v → R.data v = W.data v
  | .error _, _ => False

/-- A 1×1×1 rational volume of zeros (static volume of the C1
counterexample). -/
def zeroVolQ : Volume ℚ := ⟨![1, 1, 1], fun _ => 0⟩

/-- A 1×1×1 rational volume with intensity 1 at its single voxel (moving
volume of the C1 counterexample). -/
def oneVolQ : Volume ℚ :=
  ⟨![1, 1, 1], fun v => if v 0 = 0 ∧ v 1 = 0 ∧ v 2 = 0 then 1 else 0⟩

/-- The affine translating by −1/2 along the first axis (static affine of
the C1 counterexample). -/
def shiftHalfAffine : M4 ℚ := from_matvec 1 ![-(1 / 2), 0, 0]

/-- A concrete 1×1×1 real volume of zeros, used to instantiate the
optimizer-level claims. -/
noncomputable def zeroVolR : Volume ℝ := ⟨![1, 1, 1], fun _ => 0⟩

/-- The moving affine of the C4 counterexample: translation by 5 along
the first axis. -/
noncomputable def transFiveAffine : M4 ℝ := from_matvec 1 ![5, 0, 0]

/-- A Powell-oracle stand-in that always returns the zero parameter
vector (a perfectly legitimate minimizer output when started at zero). -/
noncomputable def zeroOracle :
    ((Fin 3 → ℝ) → Except RegError ℝ) → (Fin 3 → ℝ) → ℕ → (Fin 3 → ℝ) :=
  fun _ _ _ _ => 0

/-- A 1×1×2 real volume (2 samples), for the C9 counterexample. -/
noncomputable def slimVolR : Volume ℝ := ⟨![1, 1, 2], fun v => (v 2 : ℝ)⟩

/-- A 2×1×1 real volume (2 samples) whose shape differs from `slimVolR`
but whose flattened length is the same. -/
noncomputable def tallVolR : Volume ℝ := ⟨![2, 1, 1], fun v => (v 0 : ℝ)⟩

/-! ### Helper lemmas -/

theorem inv44_mul (A : M4 K) (h : A.det ≠ 0) : inv44 A * A = 1 := by
  unfold inv44
  rw [Matrix.smul_mul, Matrix.adjugate_mul, smul_smul, inv_mul_cancel₀ h, one_smul]

theorem mul_inv44 (A : M4 K) (h : A.det ≠ 0) : A * inv44 A = 1 := by
  unfold inv44
  rw [Matrix.mul_smul, Matrix.mul_adjugate, smul_smul, inv_mul_cancel₀ h, one_smul]

theorem resample_eq_ok (S M : Volume K) (As Am : M4 K) (h : Am.det ≠ 0) :
    resample S M As Am =
      .ok (affine_transform M (to_matvec (inv44 Am * As)).1
            (to_matvec (inv44 Am * As)).2 S.shape) := by
  unfold resample npinv
  rw [if_neg h]
  rfl

theorem to_matvec_one_fst : (to_matvec (1 : M4 K)).1 = 1 := by
  ext i j
  simp [to_matvec, Matrix.one_apply, Fin.castSucc_inj]

theorem castSucc_ne_three (i : Fin 3) : i.castSucc ≠ (3 : Fin 4) := by
  intro h
  have hlt := Fin.castSucc_lt_last i
  rw [h] at hlt
  exact absurd hlt (by decide)

theorem to_matvec_one_snd : (to_matvec (1 : M4 K)).2 = fun _ => 0 := by
  funext i
  simp [to_matvec, Matrix.one_apply, castSucc_ne_three i]

theorem vec3_eta (v : Fin 3 → ℤ) : ![v 0, v 1, v 2] = v := by
  funext i
  fin_cases i <;> simp

theorem to_matvec_fst_apply (A : M4 K) (i j : Fin 3) :
    (to_matvec A).1 i j = A i.castSucc j.castSucc := rfl

theorem to_matvec_snd_apply (A : M4 K) (i : Fin 3) :
    (to_matvec A).2 i = A i.castSucc 3 := rfl

theorem from_matvec_lin (mat : M3 K) (vec : Fin 3 → K) (i j : Fin 3) :
    from_matvec mat vec i.castSucc j.castSucc = mat i j := by
  unfold from_matvec
  have hi : ((i.castSucc : Fin 4) : ℕ) < 3 := by simpa using i.isLt
  have hj : ((j.castSucc : Fin 4) : ℕ) < 3 := by simpa using j.isLt
  rw [Matrix.of_apply, dif_pos hi, dif_pos hj]
  congr 1

theorem from_matvec_vec (mat : M3 K) (vec : Fin 3 → K) (i : Fin 3) :
    from_matvec mat vec i.castSucc 3 = vec i := by
  unfold from_matvec
  have hi : ((i.castSucc : Fin 4) : ℕ) < 3 := by simpa using i.isLt
  have hj : ¬ (((3 : Fin 4) : ℕ) < 3) := by decide
  rw [Matrix.of_apply, dif_pos hi, dif_neg hj]
  congr 1

theorem from_matvec_row3 (mat : M3 K) (vec : Fin 3 → K) (j : Fin 4) :
    from_matvec mat vec 3 j = if (j : ℕ) = 3 then 1 else 0 := by
  unfold from_matvec
  rw [Matrix.of_apply, dif_neg (by decide : ¬ (((3 : Fin 4) : ℕ) < 3))]

theorem inShape_iff (s : Fin 3 → ℕ) (v : Fin 3 → ℤ) :
    inShape s v ↔ (0 ≤ v 0 ∧ v 0 < (s 0 : ℤ)) ∧ (0 ≤ v 1 ∧ v 1 < (s 1 : ℤ)) ∧
      (0 ≤ v 2 ∧ v 2 < (s 2 : ℤ)) := by
  unfold inShape
  constructor
  · intro h
    exact ⟨h 0, h 1, h 2⟩
  · rintro ⟨h0, h1, h2⟩ i
    fin_cases i <;> assumption

theorem inExtent_iff (s : Fin 3 → ℕ) (c : Fin 3 → K) :
    inExtent s c ↔ (0 ≤ c 0 ∧ c 0 ≤ (s 0 : K) - 1) ∧ (0 ≤ c 1 ∧ c 1 ≤ (s 1 : K) - 1) ∧
      (0 ≤ c 2 ∧ c 2 ≤ (s 2 : K) - 1) := by
  unfold inExtent
  constructor
  · intro h
    exact ⟨h 0, h 1, h 2⟩
  · rintro ⟨h0, h1, h2⟩ i
    fin_cases i <;> assumption

theorem trilinear_intCast (V : Volume K) (v : Fin 3 → ℤ) :
    trilinear V (fun i => (v i : K)) = sampleAt V v := by
  unfold trilinear cornerWeight
  simp [Fintype.sum_prod_type, Fin.sum_univ_two, Int.fract_intCast,
    Int.floor_intCast, vec3_eta]

/-! ### Claims -/

/-- C7: for every volume `A` and invertible affine `T`, resampling `A`
onto its own grid — `resample(A, A, T, T)` — succeeds and returns a
volume of the same shape agreeing with `A` at every voxel: the resampler
is the identity when static and moving volume and affine coincide. -/
theorem resample_self_identity (A : Volume K) (T : M4 K) (h : T.det ≠ 0) :
    OkEqOn (resample A A T T) A := by
  rw [resample_eq_ok A A T T h, inv44_mul T h]
  refine ⟨rfl, fun v hv => ?_⟩
  show constantModeValue A _ = A.data v
  have hc : (fun i => (∑ j, (to_matvec (1 : M4 K)).1 i j * ((v j : ℤ) : K)) +
      (to_matvec (1 : M4 K)).2 i) = fun i => ((v i : ℤ) : K) := by
    funext i
    simp [to_matvec_one_fst, to_matvec_one_snd, Matrix.one_apply, ite_mul,
      Finset.sum_ite_eq]
  rw [hc]
  have hext : inExtent A.shape (fun i => ((v i : ℤ) : K)) := by
    intro i
    obtain ⟨h0, h1⟩ := hv i
    constructor
    · show (0 : K) ≤ ((v i : ℤ) : K)
      exact_mod_cast h0
    · show ((v i : ℤ) : K) ≤ (A.shape i : K) - 1
      have hle : v i ≤ (A.shape i : ℤ) - 1 := by omega
      calc ((v i : ℤ) : K) ≤ (((A.shape i : ℤ) - 1 : ℤ) : K) := by exact_mod_cast hle
        _ = (A.shape i : K) - 1 := by push_cast; ring
  rw [constantModeValue, if_pos hext, trilinear_intCast, sampleAt, if_pos hv]

/-- Witness for C7 at a concrete 2×2×2 rational volume and the identity
affine. -/
theorem resample_self_identity_witness :
    OkEqOn (resample (Volume.mk ![2, 2, 2] (fun v => ((v 0 + v 1 + v 2 : ℤ) : ℚ)))
      (Volume.mk ![2, 2, 2] (fun v => ((v 0 + v 1 + v 2 : ℤ) : ℚ))) 1 1)
      (Volume.mk ![2, 2, 2] (fun v => ((v 0 + v 1 + v 2 : ℤ) : ℚ))) :=
  resample_self_identity _ 1 (by simp)

/-- C1 counterexample: with a 1×1×1 moving volume of intensity 1,
identity moving affine and a static affine translating by −1/2 along the
first axis, the mapped coordinate of static voxel (0,0,0) is (−1/2,0,0);
`resample` (scipy's `mode='constant'`) returns 0 there, while the
claimed 8-neighbor trilinear interpolation with zero padding yields 1/2:
the value produced by the code is not the claimed trilinear value. -/
theorem resample_boundary_counterexample :
    Except.map (fun R => R.data ![0, 0, 0])
        (resample zeroVolQ oneVolQ shiftHalfAffine 1) = .ok 0 ∧
      trilinear oneVolQ
        (applyAffine (inv44 (1 : M4 ℚ) * shiftHalfAffine) ![0, 0, 0]) = 1 / 2 ∧
      (0 : ℚ) ≠ 1 / 2 := by
  have hdet : (1 : M4 ℚ).det ≠ 0 := by simp
  have h1 : inv44 (1 : M4 ℚ) = 1 := by
    unfold inv44
    simp
  have hcoord : ∀ f : Fin 3 → ℚ, (∀ i, f i = 0) →
      (fun i => (∑ j, (to_matvec shiftHalfAffine).1 i j * f j) +
        (to_matvec shiftHalfAffine).2 i) = ![-(1 / 2), 0, 0] := by
    intro f hf
    funext i
    have h0 := hf 0
    have h1' := hf 1
    have h2 := hf 2
    fin_cases i <;>
      · simp [to_matvec_fst_apply, to_matvec_snd_apply, shiftHalfAffine,
          from_matvec_lin, from_matvec_vec, Fin.sum_univ_three, h0, h1', h2]
        try rfl
  have hfloor : (⌊(-(1 / 2) : ℚ)⌋ : ℤ) = -1 := by
    rw [Int.floor_eq_iff]
    norm_num
  have hfract : Int.fract (-(1 / 2) : ℚ) = 1 / 2 := by
    unfold Int.fract
    rw [hfloor]
    norm_num
  refine ⟨?_, ?_, by norm_num⟩
  · rw [resample_eq_ok _ _ _ _ hdet, h1, one_mul]
    simp only [Except.map]
    have hval : (affine_transform oneVolQ (to_matvec shiftHalfAffine).1
        (to_matvec shiftHalfAffine).2 zeroVolQ.shape).data ![0, 0, 0] = 0 := by
      show constantModeValue oneVolQ _ = 0
      rw [hcoord (fun j => ((![0, 0, 0] j : ℤ) : ℚ)) (by intro j; fin_cases j <;> simp)]
      rw [constantModeValue, if_neg]
      rw [inExtent_iff]
      intro hc
      have := hc.1.1
      norm_num at this
    rw [hval]
  · have happ : applyAffine ((1 : M4 ℚ) * shiftHalfAffine) ![0, 0, 0] = ![-(1 / 2), 0, 0] := by
      rw [one_mul]
      funext i
      show (∑ j, shiftHalfAffine i.castSucc j.castSucc * ![(0 : ℚ), 0, 0] j) +
        shiftHalfAffine i.castSucc 3 = _
      fin_cases i <;>
        · simp [shiftHalfAffine, from_matvec_lin, from_matvec_vec, Fin.sum_univ_three]
          try rfl
    rw [h1, happ]
    unfold trilinear cornerWeight
    simp only [Fintype.sum_prod_type, Fin.sum_univ_two]
    norm_num [hfract, hfloor, sampleAt, inShape_iff, oneVolQ]

/-- C1 (amended): for every static volume `S`, moving volume `M` and
affines with `Am` invertible (with inverse `B`), `resample` succeeds and
returns a volume of exactly `S`'s shape whose value at static voxel `v`
is scipy's constant-mode sample of `M` at the continuous coordinate
`inverse(Am)·As` applied to `v`: coordinates with any component outside
`[0, dim−1]` give 0 with no interpolation beyond the edges, and in-extent
coordinates give the trilinear interpolation of the 8 integer-index
neighbors. -/
theorem resample_constant_mode (S M : Volume K) (As Am B : M4 K)
    (h : Am * B = 1) :
    resample S M As Am =
      .ok (Volume.mk S.shape (fun v =>
        constantModeValue M (applyAffine (B * As) (fun i => ((v i : ℤ) : K))))) := by
  have hdet : Am.det ≠ 0 := by
    intro h0
    have hd := congrArg Matrix.det h
    rw [Matrix.det_mul, h0, zero_mul, Matrix.det_one] at hd
    exact zero_ne_one hd
  have hB : inv44 Am = B := by
    calc inv44 Am = inv44 Am * (Am * B) := by rw [h, mul_one]
      _ = (inv44 Am * Am) * B := by rw [mul_assoc]
      _ = B := by rw [inv44_mul Am hdet, one_mul]
  rw [resample_eq_ok S M As Am hdet, hB]
  rfl

/-- Witness for C1 (amended) at concrete 1×1×1 rational volumes with both
affines the identity. -/
theorem resample_constant_mode_witness :
    resample zeroVolQ oneVolQ 1 1 =
      .ok (Volume.mk zeroVolQ.shape (fun v =>
        constantModeValue oneVolQ
          (applyAffine ((1 : M4 ℚ) * 1) (fun i => ((v i : ℤ) : ℚ))))) :=
  resample_constant_mode zeroVolQ oneVolQ 1 1 1 (one_mul 1)

theorem fin4_zero_eq : (0 : Fin 4) = (0 : Fin 3).castSucc := rfl

theorem fin4_one_eq : (1 : Fin 4) = (1 : Fin 3).castSucc := rfl

theorem fin4_two_eq : (2 : Fin 4) = (2 : Fin 3).castSucc := rfl

/-- C5: for volumes with positive total intensity and a moving affine in
homogeneous form, `transform_cmass` returns exactly
`translationAffine(d) · movingAffine`, where `d` is the world-space
displacement from the moving centroid (mapped through the moving
affine's linear part and translation) to the static centroid (mapped
through the static affine); consequently the 3×3 linear part of the
returned affine equals the moving affine's linear part — a pure
translation update. -/
theorem transform_cmass_translation_update (S M : Volume K) (As Am : M4 K)
    (hS : 0 < gridSum S S.data) (hM : 0 < gridSum M M.data)
    (hAm : ∀ j : Fin 3, Am 3 j.castSucc = 0) :
    transform_cmass S M As Am =
      from_matvec 1 (cmass_in_ref S As - cmass_in_ref M Am) * Am ∧
    (to_matvec (transform_cmass S M As Am)).1 = (to_matvec Am).1 := by
  refine ⟨rfl, ?_⟩
  ext i j
  rw [to_matvec_fst_apply, to_matvec_fst_apply]
  show (from_matvec 1 (cmass_in_ref S As - cmass_in_ref M Am) * Am) i.castSucc j.castSucc =
    Am i.castSucc j.castSucc
  rw [Matrix.mul_apply, Fin.sum_univ_four, fin4_zero_eq, fin4_one_eq, fin4_two_eq,
    from_matvec_lin, from_matvec_lin, from_matvec_lin, from_matvec_vec, hAm j, mul_zero,
    add_zero]
  fin_cases i <;> simp [Matrix.one_apply]

/-- Witness for C5 at concrete single-voxel volumes of total intensity 1
and identity affines. -/
theorem transform_cmass_translation_update_witness :
    transform_cmass (Volume.mk ![1, 1, 1] (fun _ => (1 : ℚ)))
        (Volume.mk ![1, 1, 1] (fun _ => (1 : ℚ))) 1 1 =
      from_matvec 1 (cmass_in_ref (Volume.mk ![1, 1, 1] (fun _ => (1 : ℚ))) 1 -
        cmass_in_ref (Volume.mk ![1, 1, 1] (fun _ => (1 : ℚ))) 1) * 1 ∧
    (to_matvec (transform_cmass (Volume.mk ![1, 1, 1] (fun _ => (1 : ℚ)))
        (Volume.mk ![1, 1, 1] (fun _ => (1 : ℚ))) 1 1)).1 = (to_matvec (1 : M4 ℚ)).1 :=
  transform_cmass_translation_update _ _ 1 1
    (by norm_num [gridSum]) (by norm_num [gridSum])
    (fun j => Matrix.one_apply_ne (fun h => castSucc_ne_three j h.symm))

/-- C8: whenever the moving affine passed to `resample` is singular
(zero determinant), the call fails with the singular-transform error —
detected by the explicit singularity check of the matrix inversion, not
by producing NaNs — and both optimizer cost functions that reach such a
`resample` propagate the same error to their caller instead of
substituting an identity transform or a sentinel value. -/
theorem resample_singular_error (S M : Volume ℝ) (As Am : M4 ℝ) (h : Am.det = 0) :
    resample S M As Am = .error .singularTransform ∧
      (∀ t, MI_cost_translation S M As Am t = .error .singularTransform) ∧
      (∀ r, MI_cost_rotation S M As Am r = .error .singularTransform) := by
  have herr : ∀ X : M4 ℝ, (Am * X).det = 0 := fun X => by
    rw [Matrix.det_mul, h, zero_mul]
  have hres : ∀ X : M4 ℝ, resample S M As (Am * X) = .error .singularTransform := by
    intro X
    unfold resample npinv
    rw [if_pos (herr X)]
    rfl
  refine ⟨?_, fun t => ?_, fun r => ?_⟩
  · unfold resample npinv
    rw [if_pos h]
    rfl
  · unfold MI_cost_translation
    rw [hres]
    rfl
  · unfold MI_cost_rotation
    rw [hres]
    rfl

/-- Witness for C8 at the zero moving affine (determinant zero). -/
theorem resample_singular_error_witness :
    resample zeroVolR zeroVolR 1 0 = .error .singularTransform ∧
      (∀ t, MI_cost_translation zeroVolR zeroVolR 1 0 t = .error .singularTransform) ∧
      (∀ r, MI_cost_rotation zeroVolR zeroVolR 1 0 r = .error .singularTransform) :=
  resample_singular_error zeroVolR zeroVolR 1 0 (Matrix.det_zero ⟨0⟩)

theorem from_matvec_one_zero : from_matvec (1 : M3 K) (fun _ => 0) = 1 := by
  ext i j
  fin_cases i <;> fin_cases j <;>
    norm_num [from_matvec, Matrix.one_apply, Fin.ext_iff]

theorem make_rot_mat_zero : make_rot_mat (fun _ => 0) = 1 := by
  unfold make_rot_mat x_rotmat y_rotmat z_rotmat
  ext i j
  fin_cases i <;> fin_cases j <;>
    simp [Matrix.mul_apply, Fin.sum_univ_three, Matrix.one_apply, Fin.ext_iff,
      Matrix.vecHead, Matrix.vecTail]

/-- C2: `transform_rigid` returns the affine recombining the best-found
rotation matrix with the best-found translation vector into one new
affine `from_matvec(make_rot_mat(bestRotations), bestTranslations)` —
not the product of the two intermediate phase affines — and, when the
mode skips a phase, that phase's parameters are held exactly at zero:
translation-only mode returns an affine with identity rotation part, and
rotation-only mode returns one with zero translation component. -/
theorem transform_rigid_compose (S M : Volume ℝ) (As Am : M4 ℝ) (iter : ℕ)
    (fmin : ((Fin 3 → ℝ) → Except RegError ℝ) → (Fin 3 → ℝ) → ℕ → (Fin 3 → ℝ)) :
    (transform_rigid S M As Am iter fmin 0 =
      from_matvec
        (make_rot_mat (fmin (MI_cost_rotation S M As (Am * from_matvec 1
            (fmin (MI_cost_translation S M As Am) (fun _ => 0) iter))) (fun _ => 0) iter))
        (fmin (MI_cost_translation S M As Am) (fun _ => 0) iter)) ∧
    (transform_rigid S M As Am iter fmin 1 =
      from_matvec 1 (fmin (MI_cost_translation S M As Am) (fun _ => 0) iter)) ∧
    (transform_rigid S M As Am iter fmin 2 =
      from_matvec (make_rot_mat (fmin (MI_cost_rotation S M As Am) (fun _ => 0) iter))
        (fun _ => 0)) := by
  refine ⟨?_, ?_, ?_⟩
  · simp [transform_rigid]
  · simp [transform_rigid, make_rot_mat_zero]
  · simp [transform_rigid, from_matvec_one_zero]

theorem zeroOracle_apply (f : (Fin 3 → ℝ) → Except RegError ℝ) (s : Fin 3 → ℝ) (n : ℕ) :
    zeroOracle f s n = fun _ => 0 := rfl

/-- C4 counterexample: with the Powell oracle returning zero parameter
vectors and a moving affine translating by 5, combined-mode
`transform_rigid` returns the identity affine, while composing the found
translation and rotation corrections onto the initializer's moving
affine would give the moving affine itself: the moving affine is not a
factor of the returned transform. -/
theorem transform_rigid_drops_moving_affine_counterexample :
    transform_rigid zeroVolR zeroVolR 1 transFiveAffine 3 zeroOracle 0 ≠
      transFiveAffine *
        from_matvec 1 (zeroOracle (MI_cost_translation zeroVolR zeroVolR 1 transFiveAffine)
          (fun _ => 0) 3) *
        from_matvec (make_rot_mat (zeroOracle (MI_cost_rotation zeroVolR zeroVolR 1
            (transFiveAffine * from_matvec 1 (zeroOracle
              (MI_cost_translation zeroVolR zeroVolR 1 transFiveAffine) (fun _ => 0) 3)))
          (fun _ => 0) 3)) (fun _ => 0) := by
  have hL : transform_rigid zeroVolR zeroVolR 1 transFiveAffine 3 zeroOracle 0 = 1 := by
    simp [transform_rigid, zeroOracle_apply, make_rot_mat_zero, from_matvec_one_zero]
  have hR : transFiveAffine *
      from_matvec 1 (zeroOracle (MI_cost_translation zeroVolR zeroVolR 1 transFiveAffine)
        (fun _ => 0) 3) *
      from_matvec (make_rot_mat (zeroOracle (MI_cost_rotation zeroVolR zeroVolR 1
          (transFiveAffine * from_matvec 1 (zeroOracle
            (MI_cost_translation zeroVolR zeroVolR 1 transFiveAffine) (fun _ => 0) 3)))
        (fun _ => 0) 3)) (fun _ => 0) = transFiveAffine := by
    simp [zeroOracle_apply, make_rot_mat_zero, from_matvec_one_zero]
  rw [hL, hR]
  intro h
  have hentry : (1 : M4 ℝ) 0 3 = transFiveAffine 0 3 := by rw [h]
  rw [Matrix.one_apply_ne (by decide : (0 : Fin 4) ≠ 3)] at hentry
  rw [show transFiveAffine 0 3 = (5 : ℝ) from by
    rw [transFiveAffine, fin4_zero_eq, from_matvec_vec]
    norm_num] at hentry
  norm_num at hentry

/-- C4 (amended): in combined mode the affine returned by
`transform_rigid` is built solely from the best rotation matrix and the
best translation vector, `from_matvec(make_rot_mat(bestRotations),
bestTranslations)`; the initializer's moving affine premultiplies the
affines used inside the cost evaluations but is not composed into the
returned transform. -/
theorem transform_rigid_combined_result (S M : Volume ℝ) (As Am : M4 ℝ) (iter : ℕ)
    (fmin : ((Fin 3 → ℝ) → Except RegError ℝ) → (Fin 3 → ℝ) → ℕ → (Fin 3 → ℝ)) :
    transform_rigid S M As Am iter fmin 0 =
      from_matvec
        (make_rot_mat (fmin (MI_cost_rotation S M As (Am * from_matvec 1
            (fmin (MI_cost_translation S M As Am) (fun _ => 0) iter))) (fun _ => 0) iter))
        (fmin (MI_cost_translation S M As Am) (fun _ => 0) iter) := by
  simp [transform_rigid]

/-- C9 counterexample: `mutual_info` performs no grid-shape check — on
two volumes of different shapes (1,1,2) and (2,1,1) but equal flattened
length it succeeds and returns a value instead of raising a
shape-mismatch error. -/
theorem mutual_info_no_shape_check_counterexample :
    (mutual_info slimVolR tallVolR 4).toOption.isSome = true ∧
      slimVolR.shape ≠ tallVolR.shape := by
  constructor
  · rfl
  · intro h
    have h0 : slimVolR.shape 0 = tallVolR.shape 0 := by rw [h]
    simp [slimVolR, tallVolR] at h0

/-- C9 (amended): `mutual_info` fails (with `numpy.histogram2d`'s
length-mismatch error) exactly when the two flattened sample vectors
differ in length, and succeeds whenever the flattened lengths agree and
the bin count is positive — volumes of different shape but equal element
count are accepted, so no shape-mismatch error tied to the grid shapes
exists. -/
theorem mutual_info_ok_iff_size_eq (A B : Volume ℝ) (n : ℕ) (hn : 0 < n) :
    ((mutual_info A B n).toOption.isSome = true ↔ A.size = B.size) ∧
      (A.size ≠ B.size → mutual_info A B n = .error .lengthMismatch) := by
  unfold mutual_info
  rcases eq_or_ne A.size B.size with h | h
  · rw [if_neg (by simp [h]), if_neg (Nat.pos_iff_ne_zero.mp hn)]
    simp [h, Except.toOption]
  · rw [if_pos h]
    simp [h, Except.toOption]

/-- Witness for C9 (amended) at equal-size volumes and 4 bins. -/
theorem mutual_info_ok_iff_size_eq_witness :
    ((mutual_info zeroVolR zeroVolR 4).toOption.isSome = true ↔
        zeroVolR.size = zeroVolR.size) ∧
      (zeroVolR.size ≠ zeroVolR.size →
        mutual_info zeroVolR zeroVolR 4 = .error .lengthMismatch) :=
  mutual_info_ok_iff_size_eq zeroVolR zeroVolR 4 (by norm_num)

/-- C3: for same-shape volumes with at least one sample and a positive
bin count, `mutual_info` succeeds and returns exactly the sum, over
those cells of the n×n normalized joint histogram with `P[i,j] > 0`, of
`P[i,j]·log(P[i,j]/(Px[i]·Py[j]))`, where `P` is the joint count
histogram divided by the total count and `Px`, `Py` are its row and
column marginals; zero-probability cells are excluded by the mask, so no
logarithm of zero is evaluated. -/
theorem mutual_info_eq_masked_sum (A B : Volume ℝ) (n : ℕ)
    (hshape : A.shape = B.shape) (hn : 0 < n) (hsize : 0 < A.size) :
    mutual_info A B n =
      .ok (∑ ij in (Finset.range n ×ˢ Finset.range n).filter
          (fun ij => 0 < jointP A B n ij.1 ij.2),
        jointP A B n ij.1 ij.2 *
          Real.log (jointP A B n ij.1 ij.2 /
            (margX A B n ij.1 * margY A B n ij.2))) := by
  have hsz : A.size = B.size := by
    unfold Volume.size
    rw [hshape]
  unfold mutual_info
  rw [if_neg (by simp [hsz]), if_neg (Nat.pos_iff_ne_zero.mp hn)]
  congr 1
  rw [Finset.sum_filter, Finset.sum_product]
  rfl

/-- Witness for C3 at two equal 1×1×1 volumes and 2 bins. -/
theorem mutual_info_eq_masked_sum_witness :
    mutual_info zeroVolR zeroVolR 2 =
      .ok (∑ ij in (Finset.range 2 ×ˢ Finset.range 2).filter
          (fun ij => 0 < jointP zeroVolR zeroVolR 2 ij.1 ij.2),
        jointP zeroVolR zeroVolR 2 ij.1 ij.2 *
          Real.log (jointP zeroVolR zeroVolR 2 ij.1 ij.2 /
            (margX zeroVolR zeroVolR 2 ij.1 * margY zeroVolR zeroVolR 2 ij.2))) :=
  mutual_info_eq_masked_sum zeroVolR zeroVolR 2 rfl (by norm_num)
    (by norm_num [Volume.size, zeroVolR])

theorem hist2d_swap (A B : Volume ℝ) (n : ℕ) (h : A.size = B.size) (i j : ℕ) :
    hist2d B A n i j = hist2d A B n j i := by
  unfold hist2d
  rw [← h]
  exact congrArg Finset.card
    (Finset.filter_congr fun t _ => by exact And.comm)

theorem totalCount_swap (A B : Volume ℝ) (n : ℕ) (h : A.size = B.size) :
    totalCount B A n = totalCount A B n := by
  unfold totalCount
  rw [Finset.sum_comm]
  exact Finset.sum_congr rfl fun i _ => Finset.sum_congr rfl fun j _ =>
    hist2d_swap A B n h j i

theorem jointP_swap (A B : Volume ℝ) (n : ℕ) (h : A.size = B.size) (i j : ℕ) :
    jointP B A n i j = jointP A B n j i := by
  unfold jointP
  rw [hist2d_swap A B n h i j, totalCount_swap A B n h]

theorem margX_swap (A B : Volume ℝ) (n : ℕ) (h : A.size = B.size) (i : ℕ) :
    margX B A n i = margY A B n i := by
  unfold margX margY
  exact Finset.sum_congr rfl fun j _ => jointP_swap A B n h i j

theorem margY_swap (A B : Volume ℝ) (n : ℕ) (h : A.size = B.size) (j : ℕ) :
    margY B A n j = margX A B n j := by
  unfold margX margY
  exact Finset.sum_congr rfl fun i _ => jointP_swap A B n h i j

theorem MIval_symm (A B : Volume ℝ) (n : ℕ) (h : A.size = B.size) :
    MIval B A n = MIval A B n := by
  unfold MIval
  calc ∑ i in Finset.range n, ∑ j in Finset.range n,
        (if 0 < jointP B A n i j then jointP B A n i j *
          Real.log (jointP B A n i j / (margX B A n i * margY B A n j)) else 0)
      = ∑ i in Finset.range n, ∑ j in Finset.range n,
          (if 0 < jointP A B n j i then jointP A B n j i *
            Real.log (jointP A B n j i / (margX A B n j * margY A B n i)) else 0) := by
        refine Finset.sum_congr rfl fun i _ => Finset.sum_congr rfl fun j _ => ?_
        rw [jointP_swap A B n h i j, margX_swap A B n h i, margY_swap A B n h j,
          mul_comm (margY A B n i) (margX A B n j)]
    _ = _ := Finset.sum_comm

/-- C6: for same-shape volumes and any bin count, mutual information is
symmetric in its two volume arguments, by transpose symmetry of the
joint histogram. -/
theorem mutual_info_symm (A B : Volume ℝ) (n : ℕ) (hshape : A.shape = B.shape) :
    mutual_info A B n = mutual_info B A n := by
  have hsz : A.size = B.size := by
    unfold Volume.size
    rw [hshape]
  unfold mutual_info
  have hAB : ¬ A.size ≠ B.size := by simp [hsz]
  have hBA : ¬ B.size ≠ A.size := by simp [hsz]
  rw [if_neg hAB, if_neg hBA]
  rcases Nat.eq_zero_or_pos n with h0 | hn
  · rw [if_pos h0, if_pos h0]
  · rw [if_neg (Nat.pos_iff_ne_zero.mp hn), if_neg (Nat.pos_iff_ne_zero.mp hn),
      MIval_symm A B n hsz]

/-- Witness for C6 at two same-shape 1×1×1 volumes and 4 bins. -/
theorem mutual_info_symm_witness :
    mutual_info zeroVolR (Volume.mk ![1, 1, 1] (fun _ => 1)) 4 =
      mutual_info (Volume.mk ![1, 1, 1] (fun _ => 1)) zeroVolR 4 :=
  mutual_info_symm zeroVolR (Volume.mk ![1, 1, 1] (fun _ => 1)) 4 rfl

theorem binOf_lt (V : Volume ℝ) (n : ℕ) (hn : 0 < n) (t : ℕ) : binOf V n t < n := by
  unfold binOf binIdx
  rcases eq_or_ne (vminOf V) (vmaxOf V) with h | h
  · rw [if_pos h]
    exact lt_of_le_of_lt (Nat.min_le_right _ _) (Nat.sub_lt hn Nat.one_pos)
  · rw [if_neg h]
    exact lt_of_le_of_lt (Nat.min_le_right _ _) (Nat.sub_lt hn Nat.one_pos)

theorem sum_indicator_single (n b : ℕ) (hb : b < n) :
    ∑ j in Finset.range n, (if b = j then (1 : ℕ) else 0) = 1 := by
  rw [Finset.sum_ite_eq (Finset.range n) b (fun _ => (1 : ℕ))]
  exact if_pos (Finset.mem_range.mpr hb)

theorem sum_indicator_pair (n a b : ℕ) (ha : a < n) (hb : b < n) :
    ∑ i in Finset.range n, ∑ j in Finset.range n,
      (if a = i ∧ b = j then (1 : ℕ) else 0) = 1 := by
  have hsplit : ∀ i j : ℕ, (if a = i ∧ b = j then (1 : ℕ) else 0) =
      (if a = i then 1 else 0) * (if b = j then 1 else 0) := by
    intro i j
    by_cases h1 : a = i <;> by_cases h2 : b = j <;> simp [h1, h2]
  calc ∑ i in Finset.range n, ∑ j in Finset.range n,
        (if a = i ∧ b = j then (1 : ℕ) else 0)
      = ∑ i in Finset.range n, (if a = i then (1 : ℕ) else 0) *
          ∑ j in Finset.range n, (if b = j then (1 : ℕ) else 0) := by
        refine Finset.sum_congr rfl fun i _ => ?_
        rw [Finset.mul_sum]
        exact Finset.sum_congr rfl fun j _ => hsplit i j
    _ = ∑ i in Finset.range n, (if a = i then (1 : ℕ) else 0) := by
        refine Finset.sum_congr rfl fun i _ => ?_
        rw [sum_indicator_single n b hb, mul_one]
    _ = 1 := sum_indicator_single n a ha

theorem totalCount_eq_size (A B : Volume ℝ) (n : ℕ) (hn : 0 < n) :
    totalCount A B n = A.size := by
  unfold totalCount hist2d
  calc ∑ i in Finset.range n, ∑ j in Finset.range n,
        ((Finset.range A.size).filter
          (fun t => binOf A n t = i ∧ binOf B n t = j)).card
      = ∑ i in Finset.range n, ∑ j in Finset.range n, ∑ t in Finset.range A.size,
          (if binOf A n t = i ∧ binOf B n t = j then (1 : ℕ) else 0) :=
        Finset.sum_congr rfl fun i _ => Finset.sum_congr rfl fun j _ =>
          Finset.card_filter _ _
    _ = ∑ i in Finset.range n, ∑ t in Finset.range A.size, ∑ j in Finset.range n,
          (if binOf A n t = i ∧ binOf B n t = j then (1 : ℕ) else 0) :=
        Finset.sum_congr rfl fun i _ => Finset.sum_comm
    _ = ∑ t in Finset.range A.size, ∑ i in Finset.range n, ∑ j in Finset.range n,
          (if binOf A n t = i ∧ binOf B n t = j then (1 : ℕ) else 0) :=
        Finset.sum_comm
    _ = ∑ t in Finset.range A.size, 1 :=
        Finset.sum_congr rfl fun t _ =>
          sum_indicator_pair n (binOf A n t) (binOf B n t)
            (binOf_lt A n hn t) (binOf_lt B n hn t)
    _ = A.size := by simp

theorem jointP_nonneg (A B : Volume ℝ) (n i j : ℕ) : 0 ≤ jointP A B n i j := by
  unfold jointP
  positivity

theorem margX_nonneg (A B : Volume ℝ) (n i : ℕ) : 0 ≤ margX A B n i :=
  Finset.sum_nonneg fun j _ => jointP_nonneg A B n i j

theorem margY_nonneg (A B : Volume ℝ) (n j : ℕ) : 0 ≤ margY A B n j :=
  Finset.sum_nonneg fun i _ => jointP_nonneg A B n i j

theorem jointP_le_margX (A B : Volume ℝ) (n i j : ℕ) (hj : j ∈ Finset.range n) :
    jointP A B n i j ≤ margX A B n i := by
  unfold margX
  exact Finset.single_le_sum (fun k _ => jointP_nonneg A B n i k) hj

theorem jointP_le_margY (A B : Volume ℝ) (n i j : ℕ) (hi : i ∈ Finset.range n) :
    jointP A B n i j ≤ margY A B n j := by
  unfold margY
  exact Finset.single_le_sum (fun k _ => jointP_nonneg A B n k j) hi

theorem sum_jointP_eq_one (A B : Volume ℝ) (n : ℕ) (hn : 0 < n) (hsz : 0 < A.size) :
    ∑ i in Finset.range n, ∑ j in Finset.range n, jointP A B n i j = 1 := by
  unfold jointP
  have hpos : (0 : ℝ) < (totalCount A B n : ℝ) := by
    rw [totalCount_eq_size A B n hn]
    exact_mod_cast hsz
  have hcast : ∑ i in Finset.range n, ∑ j in Finset.range n, (hist2d A B n i j : ℝ)
      = (totalCount A B n : ℝ) := by
    unfold totalCount
    push_cast
    rfl
  simp only [← Finset.sum_div]
  rw [hcast, div_self hpos.ne']

theorem sum_margX_eq_one (A B : Volume ℝ) (n : ℕ) (hn : 0 < n) (hsz : 0 < A.size) :
    ∑ i in Finset.range n, margX A B n i = 1 := by
  unfold margX
  exact sum_jointP_eq_one A B n hn hsz

theorem sum_margY_eq_one (A B : Volume ℝ) (n : ℕ) (hn : 0 < n) (hsz : 0 < A.size) :
    ∑ j in Finset.range n, margY A B n j = 1 := by
  unfold margY
  rw [Finset.sum_comm]
  exact sum_jointP_eq_one A B n hn hsz

/-- C10: for same-shape volumes with at least one sample and a positive
bin count, the mutual-information value returned to the optimizer is
non-negative: the masked sum is the Kullback–Leibler divergence of the
normalized joint histogram from the product of its marginals. -/
theorem mutual_info_nonneg (A B : Volume ℝ) (n : ℕ) (hshape : A.shape = B.shape)
    (hn : 0 < n) (hsz : 0 < A.size) :
    mutual_info A B n = .ok (MIval A B n) ∧ 0 ≤ MIval A B n := by
  have hszB : A.size = B.size := by
    unfold Volume.size
    rw [hshape]
  constructor
  · unfold mutual_info
    rw [if_neg (by simp [hszB]), if_neg (Nat.pos_iff_ne_zero.mp hn)]
  · have hQ0 : ∀ i j : ℕ, 0 ≤ margX A B n i * margY A B n j := fun i j =>
      mul_nonneg (margX_nonneg A B n i) (margY_nonneg A B n j)
    have hterm : ∀ i ∈ Finset.range n, ∀ j ∈ Finset.range n,
        (if 0 < jointP A B n i j then
          jointP A B n i j - margX A B n i * margY A B n j else 0) ≤
        (if 0 < jointP A B n i j then jointP A B n i j *
          Real.log (jointP A B n i j / (margX A B n i * margY A B n j)) else 0) := by
      intro i hi j hj
      by_cases hp : 0 < jointP A B n i j
      · rw [if_pos hp, if_pos hp]
        have hx : 0 < margX A B n i := lt_of_lt_of_le hp (jointP_le_margX A B n i j hj)
        have hy : 0 < margY A B n j := lt_of_lt_of_le hp (jointP_le_margY A B n i j hi)
        have hq : 0 < margX A B n i * margY A B n j := mul_pos hx hy
        have hlog : Real.log ((margX A B n i * margY A B n j) / jointP A B n i j) ≤
            (margX A B n i * margY A B n j) / jointP A B n i j - 1 :=
          Real.log_le_sub_one_of_pos (div_pos hq hp)
        have hlog2 : Real.log (jointP A B n i j / (margX A B n i * margY A B n j)) =
            - Real.log ((margX A B n i * margY A B n j) / jointP A B n i j) := by
          rw [← Real.log_inv, inv_div]
        have hge : 1 - (margX A B n i * margY A B n j) / jointP A B n i j ≤
            Real.log (jointP A B n i j / (margX A B n i * margY A B n j)) := by
          rw [hlog2]
          linarith
        have hmul := mul_le_mul_of_nonneg_left hge hp.le
        calc jointP A B n i j - margX A B n i * margY A B n j
            = jointP A B n i j *
              (1 - (margX A B n i * margY A B n j) / jointP A B n i j) := by
              field_simp
          _ ≤ jointP A B n i j *
              Real.log (jointP A B n i j / (margX A B n i * margY A B n j)) := hmul
      · rw [if_neg hp, if_neg hp]
    have hsum1 : ∑ i in Finset.range n, ∑ j in Finset.range n,
        (if 0 < jointP A B n i j then
          jointP A B n i j - margX A B n i * margY A B n j else 0) ≤ MIval A B n := by
      unfold MIval
      exact Finset.sum_le_sum fun i hi => Finset.sum_le_sum fun j hj => hterm i hi j hj
    have hsplit : ∀ i j : ℕ, (if 0 < jointP A B n i j then
        jointP A B n i j - margX A B n i * margY A B n j else 0) =
        (if 0 < jointP A B n i j then jointP A B n i j else 0) -
        (if 0 < jointP A B n i j then margX A B n i * margY A B n j else 0) := by
      intro i j
      by_cases hp : 0 < jointP A B n i j <;> simp [hp]
    have hP1 : ∑ i in Finset.range n, ∑ j in Finset.range n,
        (if 0 < jointP A B n i j then jointP A B n i j else 0) = 1 := by
      have hid : ∀ i j : ℕ, (if 0 < jointP A B n i j then jointP A B n i j else 0) =
          jointP A B n i j := by
        intro i j
        by_cases hp : 0 < jointP A B n i j
        · rw [if_pos hp]
        · rw [if_neg hp]
          have := jointP_nonneg A B n i j
          linarith
      calc ∑ i in Finset.range n, ∑ j in Finset.range n,
            (if 0 < jointP A B n i j then jointP A B n i j else 0)
          = ∑ i in Finset.range n, ∑ j in Finset.range n, jointP A B n i j :=
            Finset.sum_congr rfl fun i _ => Finset.sum_congr rfl fun j _ => hid i j
        _ = 1 := sum_jointP_eq_one A B n hn hsz
    have hQ1 : ∑ i in Finset.range n, ∑ j in Finset.range n,
        (if 0 < jointP A B n i j then margX A B n i * margY A B n j else 0) ≤ 1 := by
      calc ∑ i in Finset.range n, ∑ j in Finset.range n,
            (if 0 < jointP A B n i j then margX A B n i * margY A B n j else 0)
          ≤ ∑ i in Finset.range n, ∑ j in Finset.range n,
              margX A B n i * margY A B n j := by
            refine Finset.sum_le_sum fun i _ => Finset.sum_le_sum fun j _ => ?_
            by_cases hp : 0 < jointP A B n i j
            · rw [if_pos hp]
            · rw [if_neg hp]
              exact hQ0 i j
        _ = (∑ i in Finset.range n, margX A B n i) *
              (∑ j in Finset.range n, margY A B n j) :=
            (Finset.sum_mul_sum _ _ _ _).symm
        _ = 1 := by
            rw [sum_margX_eq_one A B n hn hsz, sum_margY_eq_one A B n hn hsz, one_mul]
    have hlow : ∑ i in Finset.range n, ∑ j in Finset.range n,
        (if 0 < jointP A B n i j then
          jointP A B n i j - margX A B n i * margY A B n j else 0) =
        (∑ i in Finset.range n, ∑ j in Finset.range n,
          (if 0 < jointP A B n i j then jointP A B n i j else 0)) -
        (∑ i in Finset.range n, ∑ j in Finset.range n,
          (if 0 < jointP A B n i j then margX A B n i * margY A B n j else 0)) := by
      calc ∑ i in Finset.range n, ∑ j in Finset.range n,
            (if 0 < jointP A B n i j then
              jointP A B n i j - margX A B n i * margY A B n j else 0)
          = ∑ i in Finset.range n, ∑ j in Finset.range n,
              ((if 0 < jointP A B n i j then jointP A B n i j else 0) -
                (if 0 < jointP A B n i j then margX A B n i * margY A B n j else 0)) :=
            Finset.sum_congr rfl fun i _ => Finset.sum_congr rfl fun j _ => hsplit i j
        _ = _ := by
            rw [← Finset.sum_sub_distrib]
            exact Finset.sum_congr rfl fun i _ => Finset.sum_sub_distrib
    rw [hlow, hP1] at hsum1
    linarith

/-- Witness for C10 at two same-shape 1×1×1 volumes and 4 bins. -/
theorem mutual_info_nonneg_witness :
    mutual_info zeroVolR (Volume.mk ![1, 1, 1] (fun _ => 1)) 4 =
      .ok (MIval zeroVolR (Volume.mk ![1, 1, 1] (fun _ => 1)) 4) ∧
    0 ≤ MIval zeroVolR (Volume.mk ![1, 1, 1] (fun _ => 1)) 4 :=
  mutual_info_nonneg zeroVolR (Volume.mk ![1, 1, 1] (fun _ => 1)) 4 rfl
    (by norm_num) (by norm_num [Volume.size, zeroVolR])

end ProjectRed
